import Mathlib

/-!
# Verification of the cat_fundraiser allocation core

Shallow embedding of the financial-entity data model (`app/models/base.py`),
the allocation engine (`app/services/investment.py`), the uninvested-entity
query (`app/crud/base.py: get_uninvested`), the administrative update
(`app/crud/base.py: CRUDBase.update`) and the closed-project guard
(`app/api/validators.py: ensure_project_is_not_closed`), together with proofs
of the specification's testable properties.

Python `int` amounts are modelled as `Int`; timestamps (`datetime.now()`) are
abstracted to a single clock value `now : Nat` supplied to each operation, and
`close_date` is `Option Nat` (`none` = SQL NULL).
-/

/-- The columns of `FinancialTransactionBase` (`app/models/base.py`) that the
financial logic reads or writes: `full_amount`, `invested_amount`,
`fully_invested`, `create_date`, `close_date`.  `name`, `description`,
`user_id` and `comment` of the two subclasses play no role in the claims. -/
structure FinancialTransactionBase where
  full_amount : Int
  invested_amount : Int
  fully_invested : Bool
  create_date : Nat
  close_date : Option Nat
  deriving DecidableEq, Repr

namespace FinancialTransactionBase

/-- `mark_as_fully_invested` (`app/models/base.py`): sets
`fully_invested = True` and `close_date = datetime.now()`. -/
def mark_as_fully_invested (now : Nat) (e : FinancialTransactionBase) :
    FinancialTransactionBase :=
  { e with fully_invested := true, close_date := some now }

/-- Assignment to `invested_amount` through the SQLAlchemy
`@validates('invested_amount')` hook (`validate_invested_amount` in
`app/models/base.py`): before storing the new value, if the new value equals
`full_amount` and the entity is not yet marked, `mark_as_fully_invested` runs. -/
def set_invested_amount (now : Nat) (e : FinancialTransactionBase) (v : Int) :
    FinancialTransactionBase :=
  let e' := if v = e.full_amount ∧ e.fully_invested = false
    then e.mark_as_fully_invested now else e
  { e' with invested_amount := v }

/-- One turn of the inner `for entity in [target, source]` loop of
`run_investment_process` (`app/services/investment.py`):
`entity.invested_amount += transfer_volume` (which fires the validator), then
the explicit `if entity.full_amount == entity.invested_amount:
entity.mark_as_fully_invested()`. -/
def invest_entity_step (now : Nat) (e : FinancialTransactionBase)
    (transfer_volume : Int) : FinancialTransactionBase :=
  let e' := e.set_invested_amount now (e.invested_amount + transfer_volume)
  if e'.full_amount = e'.invested_amount then e'.mark_as_fully_invested now else e'

end FinancialTransactionBase

open FinancialTransactionBase

/-- `run_investment_process(target, sources)` (`app/services/investment.py`).
The Python function mutates `target` and the elements of `sources` in place
and returns `modified_entities`; here the result is the triple
`(final target, final states of all sources in list order, modified_entities)`.
Per iteration: `transfer_volume = min(target remaining, source remaining)`,
the volume is added to target then to the source (each addition runs
`invest_entity_step`), the source is appended to `modified_entities`, and the
loop breaks as soon as `target.fully_invested` holds. -/
def run_investment_process (now : Nat) (target : FinancialTransactionBase)
    (sources : List FinancialTransactionBase) :
    FinancialTransactionBase × List FinancialTransactionBase ×
      List FinancialTransactionBase :=
  match sources with
  | [] => (target, [], [])
  | source :: rest =>
    let transfer_volume := min (target.full_amount - target.invested_amount)
      (source.full_amount - source.invested_amount)
    let target' := target.invest_entity_step now transfer_volume
    let source' := source.invest_entity_step now transfer_volume
    if target'.fully_invested then
      (target', source' :: rest, [source'])
    else
      let r := run_investment_process now target' rest
      (r.1, source' :: r.2.1, source' :: r.2.2)

/-- Closed form of `invest_entity_step`: the validator and the explicit check
mark under exactly the same condition (new amount equals `full_amount`), so
the step adds the volume and, when the entity is now exactly full, sets the
flag and stamps `close_date := now` — unconditionally, even if the entity was
already marked. -/
theorem invest_entity_step_eq (now : Nat) (e : FinancialTransactionBase)
    (v : Int) :
    e.invest_entity_step now v =
      if e.full_amount = e.invested_amount + v then
        { e with invested_amount := e.invested_amount + v,
                 fully_invested := true, close_date := some now }
      else
        { e with invested_amount := e.invested_amount + v } := by
  unfold FinancialTransactionBase.invest_entity_step
    FinancialTransactionBase.set_invested_amount
    FinancialTransactionBase.mark_as_fully_invested
  by_cases hfull : e.full_amount = e.invested_amount + v
  · by_cases hflag : e.fully_invested = false <;>
      simp [hfull, hflag]
  · have h1 : ¬ (e.invested_amount + v = e.full_amount) := fun h => hfull h.symm
    simp [hfull, h1]

/-- `invest_entity_step` leaves `full_amount` unchanged. -/
theorem invest_entity_step_full_amount (now : Nat) (e : FinancialTransactionBase)
    (v : Int) : (e.invest_entity_step now v).full_amount = e.full_amount := by
  rw [invest_entity_step_eq]; split <;> rfl

/-- `invest_entity_step` adds exactly the transfer volume to `invested_amount`. -/
theorem invest_entity_step_invested (now : Nat) (e : FinancialTransactionBase)
    (v : Int) :
    (e.invest_entity_step now v).invested_amount = e.invested_amount + v := by
  rw [invest_entity_step_eq]; split <;> rfl

/-- `invest_entity_step` leaves `create_date` unchanged. -/
theorem invest_entity_step_create_date (now : Nat) (e : FinancialTransactionBase)
    (v : Int) : (e.invest_entity_step now v).create_date = e.create_date := by
  rw [invest_entity_step_eq]; split <;> rfl

/-- The pass returns the final states of all sources: the list in the second
component has the same length as the input source list. -/
theorem run_sources_length (now : Nat) (t : FinancialTransactionBase)
    (ss : List FinancialTransactionBase) :
    (run_investment_process now t ss).2.1.length = ss.length := by
  induction ss generalizing t with
  | nil => simp [run_investment_process]
  | cons s rest ih =>
    simp only [run_investment_process]
    by_cases h : (t.invest_entity_step now (min (t.full_amount - t.invested_amount)
        (s.full_amount - s.invested_amount))).fully_invested = true
    · simp [h]
    · simp [h, ih]

/-- `modified_entities` never outgrows the source list. -/
theorem run_mods_length_le (now : Nat) (t : FinancialTransactionBase)
    (ss : List FinancialTransactionBase) :
    (run_investment_process now t ss).2.2.length ≤ ss.length := by
  induction ss generalizing t with
  | nil => simp [run_investment_process]
  | cons s rest ih =>
    simp only [run_investment_process]
    by_cases h : (t.invest_entity_step now (min (t.full_amount - t.invested_amount)
        (s.full_amount - s.invested_amount))).fully_invested = true
    · simp [h]
    · simpa [h, Nat.succ_le_succ_iff] using ih (t.invest_entity_step now _)

/-- `modified_entities` is exactly the prefix of the final source states of
its own length: the touched sources, in processing order. -/
theorem run_mods_take (now : Nat) (t : FinancialTransactionBase)
    (ss : List FinancialTransactionBase) :
    (run_investment_process now t ss).2.2 =
      (run_investment_process now t ss).2.1.take
        (run_investment_process now t ss).2.2.length := by
  induction ss generalizing t with
  | nil => simp [run_investment_process]
  | cons s rest ih =>
    simp only [run_investment_process]
    by_cases h : (t.invest_entity_step now (min (t.full_amount - t.invested_amount)
        (s.full_amount - s.invested_amount))).fully_invested = true
    · simp [h]
    · simpa [h] using ih (t.invest_entity_step now _)

/-- Sources beyond the touched prefix come out of the pass exactly as they
went in. -/
theorem run_drop_untouched (now : Nat) (t : FinancialTransactionBase)
    (ss : List FinancialTransactionBase) :
    (run_investment_process now t ss).2.1.drop
        (run_investment_process now t ss).2.2.length =
      ss.drop (run_investment_process now t ss).2.2.length := by
  induction ss generalizing t with
  | nil => simp [run_investment_process]
  | cons s rest ih =>
    simp only [run_investment_process]
    by_cases h : (t.invest_entity_step now (min (t.full_amount - t.invested_amount)
        (s.full_amount - s.invested_amount))).fully_invested = true
    · simp [h]
    · simpa [h] using ih (t.invest_entity_step now _)

/-- If the target never fills up, every source is processed and touched. -/
theorem run_not_full_all_touched (now : Nat) (t : FinancialTransactionBase)
    (ss : List FinancialTransactionBase)
    (h : (run_investment_process now t ss).1.fully_invested = false) :
    (run_investment_process now t ss).2.2.length = ss.length := by
  induction ss generalizing t with
  | nil => simp [run_investment_process]
  | cons s rest ih =>
    simp only [run_investment_process] at h ⊢
    by_cases hb : (t.invest_entity_step now (min (t.full_amount - t.invested_amount)
        (s.full_amount - s.invested_amount))).fully_invested = true
    · simp [hb] at h
    · simp only [hb, if_neg, Bool.false_eq_true, ite_false] at h ⊢
      simpa using ih (t.invest_entity_step now _) h

/-- Conservation over the whole pass: the amount added to the target equals
the total amount added across the (final states of the) sources. -/
theorem run_conservation_all (now : Nat) (t : FinancialTransactionBase)
    (ss : List FinancialTransactionBase) :
    (run_investment_process now t ss).1.invested_amount - t.invested_amount =
      ((run_investment_process now t ss).2.1.map
          FinancialTransactionBase.invested_amount).sum -
        (ss.map FinancialTransactionBase.invested_amount).sum := by
  induction ss generalizing t with
  | nil => simp [run_investment_process]
  | cons s rest ih =>
    simp only [run_investment_process]
    by_cases h : (t.invest_entity_step now (min (t.full_amount - t.invested_amount)
        (s.full_amount - s.invested_amount))).fully_invested = true
    · simp only [h, if_true, List.map_cons, List.sum_cons,
        invest_entity_step_invested]
      ring
    · have := ih (t.invest_entity_step now (min (t.full_amount - t.invested_amount)
        (s.full_amount - s.invested_amount)))
      simp only [h, Bool.false_eq_true, if_false, List.map_cons, List.sum_cons,
        invest_entity_step_invested] at this ⊢
      omega

/-- Bounds preservation: if every entity enters the pass with
`0 ≤ invested_amount ≤ full_amount`, every entity leaves it that way. -/
theorem run_bounds (now : Nat) (t : FinancialTransactionBase)
    (ss : List FinancialTransactionBase)
    (ht0 : 0 ≤ t.invested_amount) (ht1 : t.invested_amount ≤ t.full_amount)
    (hs : ∀ s ∈ ss, 0 ≤ s.invested_amount ∧ s.invested_amount ≤ s.full_amount) :
    (0 ≤ (run_investment_process now t ss).1.invested_amount ∧
      (run_investment_process now t ss).1.invested_amount ≤
        (run_investment_process now t ss).1.full_amount) ∧
    ∀ e ∈ (run_investment_process now t ss).2.1,
      0 ≤ e.invested_amount ∧ e.invested_amount ≤ e.full_amount := by
  induction ss generalizing t with
  | nil =>
    simp only [run_investment_process]
    exact ⟨⟨ht0, ht1⟩, by simp⟩
  | cons s rest ih =>
    obtain ⟨hs0, hs1⟩ := hs s (List.mem_cons_self s rest)
    have hrest : ∀ e ∈ rest,
        0 ≤ e.invested_amount ∧ e.invested_amount ≤ e.full_amount :=
      fun e he => hs e (List.mem_cons_of_mem s he)
    have hvt := min_le_left (t.full_amount - t.invested_amount)
      (s.full_amount - s.invested_amount)
    have hvs := min_le_right (t.full_amount - t.invested_amount)
      (s.full_amount - s.invested_amount)
    have hv0 : 0 ≤ min (t.full_amount - t.invested_amount)
        (s.full_amount - s.invested_amount) := le_min (by omega) (by omega)
    simp only [run_investment_process]
    by_cases hb : (t.invest_entity_step now (min (t.full_amount - t.invested_amount)
        (s.full_amount - s.invested_amount))).fully_invested = true
    · simp only [hb, if_true]
      refine ⟨⟨?_, ?_⟩, ?_⟩
      · rw [invest_entity_step_invested]; omega
      · rw [invest_entity_step_invested, invest_entity_step_full_amount]; omega
      · intro e he
        rcases List.mem_cons.mp he with rfl | he'
        · rw [invest_entity_step_invested, invest_entity_step_full_amount]
          omega
        · exact hrest e he'
    · simp only [hb, Bool.false_eq_true, if_false]
      have ih' := ih (t.invest_entity_step now (min (t.full_amount - t.invested_amount)
          (s.full_amount - s.invested_amount)))
        (by rw [invest_entity_step_invested]; omega)
        (by rw [invest_entity_step_invested, invest_entity_step_full_amount]; omega)
        hrest
      refine ⟨ih'.1, ?_⟩
      intro e he
      rcases List.mem_cons.mp he with rfl | he'
      · rw [invest_entity_step_invested, invest_entity_step_full_amount]
        omega
      · exact ih'.2 e he'

/-- Monotonicity: if every entity enters with `invested_amount ≤ full_amount`,
no `invested_amount` decreases during the pass — the target's grows weakly,
and each source's final state dominates its entry state position by position. -/
theorem run_monotone (now : Nat) (t : FinancialTransactionBase)
    (ss : List FinancialTransactionBase)
    (ht : t.invested_amount ≤ t.full_amount)
    (hs : ∀ s ∈ ss, s.invested_amount ≤ s.full_amount) :
    t.invested_amount ≤ (run_investment_process now t ss).1.invested_amount ∧
    List.Forall₂ (fun a b => a.invested_amount ≤ b.invested_amount) ss
      (run_investment_process now t ss).2.1 := by
  induction ss generalizing t with
  | nil =>
    simp only [run_investment_process]
    exact ⟨le_refl _, List.Forall₂.nil⟩
  | cons s rest ih =>
    have hs1 := hs s (List.mem_cons_self s rest)
    have hrest : ∀ e ∈ rest, e.invested_amount ≤ e.full_amount :=
      fun e he => hs e (List.mem_cons_of_mem s he)
    have hvt := min_le_left (t.full_amount - t.invested_amount)
      (s.full_amount - s.invested_amount)
    have hvs := min_le_right (t.full_amount - t.invested_amount)
      (s.full_amount - s.invested_amount)
    have hv0 : 0 ≤ min (t.full_amount - t.invested_amount)
        (s.full_amount - s.invested_amount) := le_min (by omega) (by omega)
    simp only [run_investment_process]
    by_cases hb : (t.invest_entity_step now (min (t.full_amount - t.invested_amount)
        (s.full_amount - s.invested_amount))).fully_invested = true
    · simp only [hb, if_true]
      refine ⟨by rw [invest_entity_step_invested]; omega, ?_⟩
      refine List.Forall₂.cons (by rw [invest_entity_step_invested]; omega) ?_
      exact (List.forall₂_same).mpr fun x _ => le_refl _
    · simp only [hb, Bool.false_eq_true, if_false]
      have ih' := ih (t.invest_entity_step now (min (t.full_amount - t.invested_amount)
          (s.full_amount - s.invested_amount)))
        (by rw [invest_entity_step_invested, invest_entity_step_full_amount]; omega)
        hrest
      refine ⟨?_, ?_⟩
      · have := ih'.1
        rw [invest_entity_step_invested] at this
        omega
      · exact List.Forall₂.cons (by rw [invest_entity_step_invested]; omega) ih'.2

/-- The closure-consistency predicate of the spec: the flag agrees with the
amount equality, and a close timestamp is present exactly when the flag is
set. -/
def closure_consistent (e : FinancialTransactionBase) : Prop :=
  (e.fully_invested = true ↔ e.invested_amount = e.full_amount) ∧
  (e.close_date ≠ none ↔ e.fully_invested = true)

instance (e : FinancialTransactionBase) : Decidable (closure_consistent e) := by
  unfold closure_consistent; infer_instance

/-- After `invest_entity_step`, an entity that entered unmarked
(`fully_invested = false`, `close_date` null) is closure-consistent. -/
theorem invest_entity_step_closure (now : Nat) (e : FinancialTransactionBase)
    (v : Int) (hf : e.fully_invested = false) (hc : e.close_date = none) :
    closure_consistent (e.invest_entity_step now v) := by
  rw [invest_entity_step_eq]
  split
  · rename_i h
    exact ⟨by simp [h], by simp⟩
  · rename_i h
    refine ⟨by simp [hf]; omega, by simp [hf, hc]⟩

/-- Closure consistency after a pass: if the target enters unmarked with
`invested_amount ≠ full_amount`, and every source enters unmarked with
`invested_amount ≠ full_amount`, then every entity leaves the pass
closure-consistent. -/
theorem run_closure (now : Nat) (t : FinancialTransactionBase)
    (ss : List FinancialTransactionBase)
    (ht : t.fully_invested = false ∧ t.close_date = none ∧
      t.invested_amount ≠ t.full_amount)
    (hs : ∀ s ∈ ss, s.fully_invested = false ∧ s.close_date = none ∧
      s.invested_amount ≠ s.full_amount) :
    closure_consistent (run_investment_process now t ss).1 ∧
    ∀ e ∈ (run_investment_process now t ss).2.1, closure_consistent e := by
  induction ss generalizing t with
  | nil =>
    simp only [run_investment_process]
    exact ⟨⟨by simp [ht.1, ht.2.2], by simp [ht.1, ht.2.1]⟩, by simp⟩
  | cons s rest ih =>
    obtain ⟨hsf, hsc, hsne⟩ := hs s (List.mem_cons_self s rest)
    have hrest : ∀ e ∈ rest, e.fully_invested = false ∧ e.close_date = none ∧
        e.invested_amount ≠ e.full_amount :=
      fun e he => hs e (List.mem_cons_of_mem s he)
    simp only [run_investment_process]
    by_cases hb : (t.invest_entity_step now (min (t.full_amount - t.invested_amount)
        (s.full_amount - s.invested_amount))).fully_invested = true
    · simp only [hb, if_true]
      refine ⟨invest_entity_step_closure now t _ ht.1 ht.2.1, ?_⟩
      intro e he
      rcases List.mem_cons.mp he with rfl | he'
      · exact invest_entity_step_closure now s _ hsf hsc
      · obtain ⟨hf', hc', hne'⟩ := hrest e he'
        exact ⟨by simp [hf', hne'], by simp [hf', hc']⟩
    · simp only [hb, Bool.false_eq_true, if_false]
      have hstep := invest_entity_step_closure now t
        (min (t.full_amount - t.invested_amount)
          (s.full_amount - s.invested_amount)) ht.1 ht.2.1
      have ht' : (t.invest_entity_step now (min (t.full_amount - t.invested_amount)
          (s.full_amount - s.invested_amount))).fully_invested = false ∧
          (t.invest_entity_step now (min (t.full_amount - t.invested_amount)
          (s.full_amount - s.invested_amount))).close_date = none ∧
          (t.invest_entity_step now (min (t.full_amount - t.invested_amount)
          (s.full_amount - s.invested_amount))).invested_amount ≠
          (t.invest_entity_step now (min (t.full_amount - t.invested_amount)
          (s.full_amount - s.invested_amount))).full_amount := by
        have hf : (t.invest_entity_step now (min (t.full_amount - t.invested_amount)
            (s.full_amount - s.invested_amount))).fully_invested = false := by
          simpa using hb
        refine ⟨hf, ?_, fun h => ?_⟩
        · by_contra hcd
          exact hb (hstep.2.mp hcd)
        · exact hb (hstep.1.mpr h)
      have ih' := ih _ ht' hrest
      refine ⟨ih'.1, ?_⟩
      intro e he
      rcases List.mem_cons.mp he with rfl | he'
      · exact invest_entity_step_closure now s _ hsf hsc
      · exact ih'.2 e he'

/-- Splitting a mapped sum at an index. -/
theorem map_sum_split (m : Nat) (l : List FinancialTransactionBase) :
    (l.map FinancialTransactionBase.invested_amount).sum =
      ((l.take m).map FinancialTransactionBase.invested_amount).sum +
        ((l.drop m).map FinancialTransactionBase.invested_amount).sum := by
  conv_lhs => rw [← List.take_append_drop m l]
  rw [List.map_append, List.sum_append]

/-- C1: for every open target and every list of open sources, the amount
added to the target's `invested_amount` by `run_investment_process` equals
the sum of the amounts added to the `invested_amount` of the sources in the
returned list (the entry states of those sources being the corresponding
prefix of the input list): money is neither created nor destroyed. -/
theorem allocation_conserves_money (now : Nat) (t : FinancialTransactionBase)
    (ss : List FinancialTransactionBase)
    (ht : t.invested_amount < t.full_amount)
    (hs : ∀ s ∈ ss, s.invested_amount < s.full_amount) :
    (run_investment_process now t ss).1.invested_amount - t.invested_amount =
      ((run_investment_process now t ss).2.2.map
          FinancialTransactionBase.invested_amount).sum -
        ((ss.take (run_investment_process now t ss).2.2.length).map
          FinancialTransactionBase.invested_amount).sum := by
  have hcons := run_conservation_all now t ss
  have htake := run_mods_take now t ss
  have hdrop := run_drop_untouched now t ss
  rw [map_sum_split (run_investment_process now t ss).2.2.length
      (run_investment_process now t ss).2.1,
    map_sum_split (run_investment_process now t ss).2.2.length ss, hdrop,
    ← htake] at hcons
  omega

/-- Witness for C1 on a concrete open target and source. -/
theorem allocation_conserves_money_witness :
    (run_investment_process 0 ⟨100, 0, false, 0, none⟩
        [⟨50, 0, false, 1, none⟩]).1.invested_amount -
      (⟨100, 0, false, 0, none⟩ :
        FinancialTransactionBase).invested_amount =
      ((run_investment_process 0 ⟨100, 0, false, 0, none⟩
            [⟨50, 0, false, 1, none⟩]).2.2.map
          FinancialTransactionBase.invested_amount).sum -
        (([(⟨50, 0, false, 1, none⟩ : FinancialTransactionBase)].take
            (run_investment_process 0 ⟨100, 0, false, 0, none⟩
              [⟨50, 0, false, 1, none⟩]).2.2.length).map
          FinancialTransactionBase.invested_amount).sum :=
  allocation_conserves_money 0 ⟨100, 0, false, 0, none⟩ [⟨50, 0, false, 1, none⟩]
    (by decide) (by decide)

/-- C2: if every entity (the target and each source) satisfies
`0 ≤ invested_amount ≤ full_amount` before the call, every entity still
satisfies it after `run_investment_process` returns. -/
theorem allocation_preserves_bounds (now : Nat) (t : FinancialTransactionBase)
    (ss : List FinancialTransactionBase)
    (ht : 0 ≤ t.invested_amount ∧ t.invested_amount ≤ t.full_amount)
    (hs : ∀ s ∈ ss, 0 ≤ s.invested_amount ∧ s.invested_amount ≤ s.full_amount) :
    (0 ≤ (run_investment_process now t ss).1.invested_amount ∧
      (run_investment_process now t ss).1.invested_amount ≤
        (run_investment_process now t ss).1.full_amount) ∧
    ∀ e ∈ (run_investment_process now t ss).2.1,
      0 ≤ e.invested_amount ∧ e.invested_amount ≤ e.full_amount :=
  run_bounds now t ss ht.1 ht.2 hs

/-- Witness for C2 on a concrete target and source. -/
theorem allocation_preserves_bounds_witness :
    0 ≤ (run_investment_process 0 ⟨100, 20, false, 0, none⟩
        [⟨50, 10, false, 1, none⟩]).1.invested_amount :=
  (allocation_preserves_bounds 0 ⟨100, 20, false, 0, none⟩
    [⟨50, 10, false, 1, none⟩] (by decide) (by decide)).1.1

/-- C3: for an open target and open sources (each open entity entering with
`invested_amount < full_amount`, `fully_invested = false`, `close_date`
null), after `run_investment_process` every entity satisfies
`fully_invested = (invested_amount = full_amount)` and `close_date` is
non-null iff `fully_invested` is true. -/
theorem allocation_closure_consistency (now : Nat)
    (t : FinancialTransactionBase) (ss : List FinancialTransactionBase)
    (ht : t.invested_amount < t.full_amount ∧ t.fully_invested = false ∧
      t.close_date = none)
    (hs : ∀ s ∈ ss, s.invested_amount < s.full_amount ∧
      s.fully_invested = false ∧ s.close_date = none) :
    closure_consistent (run_investment_process now t ss).1 ∧
    ∀ e ∈ (run_investment_process now t ss).2.1, closure_consistent e :=
  run_closure now t ss ⟨ht.2.1, ht.2.2, ne_of_lt ht.1⟩
    fun s h => ⟨(hs s h).2.1, (hs s h).2.2, ne_of_lt (hs s h).1⟩

/-- Witness for C3 on a concrete open target and source. -/
theorem allocation_closure_consistency_witness :
    closure_consistent (run_investment_process 0 ⟨100, 20, false, 0, none⟩
        [⟨50, 10, false, 1, none⟩]).1 :=
  (allocation_closure_consistency 0 ⟨100, 20, false, 0, none⟩
    [⟨50, 10, false, 1, none⟩] (by decide) (by decide)).1

/-- C10: if every entity enters the pass with
`invested_amount ≤ full_amount`, every transfer volume is non-negative, so no
entity's `invested_amount` decreases: the target's weakly grows, and every
source's final state dominates its entry state, position by position. -/
theorem allocation_never_decreases (now : Nat) (t : FinancialTransactionBase)
    (ss : List FinancialTransactionBase)
    (ht : t.invested_amount ≤ t.full_amount)
    (hs : ∀ s ∈ ss, s.invested_amount ≤ s.full_amount) :
    t.invested_amount ≤ (run_investment_process now t ss).1.invested_amount ∧
    List.Forall₂ (fun a b => a.invested_amount ≤ b.invested_amount) ss
      (run_investment_process now t ss).2.1 :=
  run_monotone now t ss ht hs

/-- Witness for C10 on a concrete target and source. -/
theorem allocation_never_decreases_witness :
    (⟨100, 20, false, 0, none⟩ :
        FinancialTransactionBase).invested_amount ≤
      (run_investment_process 0 ⟨100, 20, false, 0, none⟩
        [⟨50, 10, false, 1, none⟩]).1.invested_amount :=
  (allocation_never_decreases 0 ⟨100, 20, false, 0, none⟩
    [⟨50, 10, false, 1, none⟩] (by decide) (by decide)).1

/-- `CRUDBase.get_uninvested` (`app/crud/base.py`): selects the rows of the
model's table with `fully_invested == False`.  The query carries no ORDER BY
clause, so rows come back in the table's storage order. -/
def get_uninvested (table : List FinancialTransactionBase) :
    List FinancialTransactionBase :=
  table.filter (fun e => e.fully_invested == false)

/-- The ordering the spec demands of the source list handed to the allocation
engine: `create_date` ascending. -/
def orderedByCreateDate (l : List FinancialTransactionBase) : Prop :=
  List.Pairwise (fun a b => a.create_date ≤ b.create_date) l

/-- C7 counterexample: a table whose storage order disagrees with
`create_date` order.  `get_uninvested` returns both open rows in storage
order, not sorted by `create_date` ascending as the claim states. -/
theorem get_uninvested_order_counterexample :
    ¬ orderedByCreateDate (get_uninvested
      [⟨100, 0, false, 2, none⟩, ⟨100, 0, false, 1, none⟩]) := by
  unfold orderedByCreateDate get_uninvested
  decide

/-- C7 amended: the source list consists of exactly the stored entities whose
`fully_invested` is false, taken in the table's storage order (a sublist of
the table); no `create_date` ordering is applied. -/
theorem get_uninvested_spec (table : List FinancialTransactionBase) :
    (∀ e ∈ get_uninvested table, e.fully_invested = false) ∧
    (∀ e ∈ table, e.fully_invested = false → e ∈ get_uninvested table) ∧
    (get_uninvested table).Sublist table := by
  refine ⟨?_, ?_, List.filter_sublist _⟩
  · intro e he
    simpa using (List.mem_filter.mp he).2
  · intro e he hf
    exact List.mem_filter.mpr ⟨he, by simp [hf]⟩

/-- Witness for the amended C7 on a concrete table. -/
theorem get_uninvested_spec_witness :
    (⟨100, 0, false, 2, none⟩ : FinancialTransactionBase) ∈
      get_uninvested [⟨100, 0, false, 2, none⟩, ⟨200, 200, true, 1, some 3⟩] :=
  (get_uninvested_spec [⟨100, 0, false, 2, none⟩, ⟨200, 200, true, 1, some 3⟩]).2.1
    ⟨100, 0, false, 2, none⟩ (List.mem_cons_self _ _) rfl

/-- `CRUDBase.update` (`app/crud/base.py`) applied to an update request whose
`full_amount` field is present (the financially relevant case).  When the new
`full_amount` equals the stored `invested_amount`, the code adds
`fully_invested = True` to the update data and writes the closing timestamp
under the key `'close_data'`; the model has no such column, so the
field-copying loop (`for field in obj_data`) silently drops that entry and
`close_date` is left unchanged. -/
def crud_update_full_amount (e : FinancialTransactionBase) (new_full : Int) :
    FinancialTransactionBase :=
  if new_full = e.invested_amount then
    { e with full_amount := new_full, fully_invested := true }
  else
    { e with full_amount := new_full }

/-- C6: evaluating the administrative update at the failing input.  A project
with `full_amount=100`, `invested_amount=50`, still open, is updated with
`full_amount := 50`: `fully_invested` becomes true in that step, yet
`close_date` stays null — the `'close_data'` misspelling drops the timestamp,
contradicting the claim that `close_date` is set at the moment
`fully_invested` transitions to true. -/
theorem close_date_not_set_on_admin_close :
    crud_update_full_amount ⟨100, 50, false, 0, none⟩ 50 =
        ⟨50, 50, true, 0, none⟩ ∧
      (crud_update_full_amount ⟨100, 50, false, 0, none⟩ 50).fully_invested
        = true ∧
      (crud_update_full_amount ⟨100, 50, false, 0, none⟩ 50).close_date
        = none := by
  decide

/-- `http.client.BAD_REQUEST`. -/
def BAD_REQUEST : Nat := 400

/-- The detail message `CLOSED_PROJECT_NOT_EDITED` of
`app/api/validators.py`. -/
def CLOSED_PROJECT_NOT_EDITED : String :=
  "Закрытый проект нельзя редактировать!"

/-- An `HTTPException` as raised by the validators: status code and detail. -/
structure HTTPException where
  status_code : Nat
  detail : String
  deriving DecidableEq, Repr

/-- `ensure_project_is_not_closed` (`app/api/validators.py`): raises HTTP 400
when the project's `close_date` is not null, otherwise returns normally. -/
def ensure_project_is_not_closed (e : FinancialTransactionBase) :
    Except HTTPException Unit :=
  if e.close_date ≠ none then
    Except.error ⟨BAD_REQUEST, CLOSED_PROJECT_NOT_EDITED⟩
  else
    Except.ok ()

/-- C9: `ensure_project_is_not_closed` raises HTTP 400 exactly when
`close_date` is non-null; it never consults `fully_invested` (flipping the
flag cannot change the outcome), so a project with `fully_invested` true but
`close_date` null passes the guard used by the update and delete endpoints. -/
theorem closed_guard_checks_close_date_only (e : FinancialTransactionBase) :
    (ensure_project_is_not_closed e =
        Except.error ⟨BAD_REQUEST, CLOSED_PROJECT_NOT_EDITED⟩ ↔
      e.close_date ≠ none) ∧
    (∀ b : Bool, ensure_project_is_not_closed { e with fully_invested := b } =
      ensure_project_is_not_closed e) ∧
    (e.fully_invested = true → e.close_date = none →
      ensure_project_is_not_closed e = Except.ok ()) := by
  refine ⟨?_, ?_, ?_⟩
  · by_cases hc : e.close_date = none <;>
      simp [ensure_project_is_not_closed, hc]
  · intro b
    simp [ensure_project_is_not_closed]
  · intro _ hc
    simp [ensure_project_is_not_closed, hc]

/-- Witness for C9: an inconsistent project (flag set, `close_date` null) is
accepted by the guard. -/
theorem closed_guard_witness :
    ensure_project_is_not_closed ⟨5, 5, true, 0, none⟩ = Except.ok () :=
  (closed_guard_checks_close_date_only ⟨5, 5, true, 0, none⟩).2.2 rfl rfl

/-- C5 counterexample: a target that is already fully invested
(`invested_amount = full_amount = 5`, flag set, closed at time 0), one open
source, clock at 1.  The pass is NOT a no-op: it returns a non-empty list
(containing the source) and re-assigns the target's `close_date` to the
current time. -/
theorem no_op_claim_counterexample :
    (run_investment_process 1 ⟨5, 5, true, 0, some 0⟩
        [⟨10, 0, false, 0, none⟩]).2.2 = [⟨10, 0, false, 0, none⟩] ∧
    (run_investment_process 1 ⟨5, 5, true, 0, some 0⟩
        [⟨10, 0, false, 0, none⟩]).2.2 ≠ [] ∧
    (run_investment_process 1 ⟨5, 5, true, 0, some 0⟩
        [⟨10, 0, false, 0, none⟩]).1.close_date = some 1 := by
  decide

/-- C5 amended: with a target already at its full amount, the pass is a no-op
only for an empty source list.  For a non-empty source list it performs one
zero-volume iteration with the first source and stops: it returns a
one-element list holding the first source, re-marks the target (setting the
flag and re-assigning `close_date` to the current time), re-marks the first
source likewise when that source is also at its full amount (otherwise the
source is unchanged), and leaves all later sources untouched. -/
theorem no_op_amended (now : Nat) (t : FinancialTransactionBase)
    (ss : List FinancialTransactionBase)
    (ht : t.invested_amount = t.full_amount)
    (hs : ∀ s ∈ ss, s.invested_amount ≤ s.full_amount) :
    (ss = [] → run_investment_process now t ss = (t, [], [])) ∧
    (∀ s rest, ss = s :: rest →
      run_investment_process now t ss =
        ({ t with fully_invested := true, close_date := some now },
         (if s.invested_amount = s.full_amount then
            { s with fully_invested := true, close_date := some now }
          else s) :: rest,
         [if s.invested_amount = s.full_amount then
            { s with fully_invested := true, close_date := some now }
          else s])) := by
  constructor
  · rintro rfl
    rfl
  · rintro s rest rfl
    have hsle := hs s (List.mem_cons_self s rest)
    have hmin : min (t.full_amount - t.invested_amount)
        (s.full_amount - s.invested_amount) = 0 := by
      rw [ht, sub_self]
      exact min_eq_left (by omega)
    have htgt : t.invest_entity_step now 0 =
        { t with fully_invested := true, close_date := some now } := by
      rw [invest_entity_step_eq, if_pos (by omega)]
      simp
    have hsrc : s.invest_entity_step now 0 =
        if s.invested_amount = s.full_amount then
          { s with fully_invested := true, close_date := some now }
        else s := by
      rw [invest_entity_step_eq]
      by_cases hse : s.invested_amount = s.full_amount
      · rw [if_pos (by omega), if_pos hse]
        simp
      · rw [if_neg (by omega), if_neg hse]
        simp
    simp only [run_investment_process, hmin, htgt, hsrc]
    simp

/-- Witness for the amended C5 on a concrete already-full target. -/
theorem no_op_amended_witness :
    run_investment_process 1 ⟨5, 5, true, 0, some 0⟩ [⟨10, 0, false, 0, none⟩] =
      (⟨5, 5, true, 0, some 1⟩, [⟨10, 0, false, 0, none⟩],
        [⟨10, 0, false, 0, none⟩]) :=
  (no_op_amended 1 ⟨5, 5, true, 0, some 0⟩ [⟨10, 0, false, 0, none⟩] rfl
    (by decide)).2 ⟨10, 0, false, 0, none⟩ [] rfl

/-- `invest_entity_step` leaves an unmarked result only when the new amount
missed `full_amount`. -/
theorem invest_entity_step_not_full (now : Nat) (e : FinancialTransactionBase)
    (v : Int) (h : (e.invest_entity_step now v).fully_invested = false) :
    (e.invest_entity_step now v).invested_amount ≠
      (e.invest_entity_step now v).full_amount := by
  rw [invest_entity_step_eq] at h ⊢
  by_cases hc : e.full_amount = e.invested_amount + v
  · rw [if_pos hc] at h
    simp at h
  · rw [if_neg hc]
    intro hx
    simp only at hx
    exact hc hx.symm

/-- A one-source pass always performs exactly one iteration and touches that
source, whether or not the target fills. -/
theorem run_singleton (now : Nat) (t s : FinancialTransactionBase) :
    run_investment_process now t [s] =
      (t.invest_entity_step now (min (t.full_amount - t.invested_amount)
          (s.full_amount - s.invested_amount)),
       [s.invest_entity_step now (min (t.full_amount - t.invested_amount)
          (s.full_amount - s.invested_amount))],
       [s.invest_entity_step now (min (t.full_amount - t.invested_amount)
          (s.full_amount - s.invested_amount))]) := by
  simp only [run_investment_process]
  split <;> rfl

/-- If the pass on a prefix `xs` fills the target (entered open), the pass on
`xs ++ ys` breaks inside `xs` and never looks at `ys`. -/
theorem run_append_full (now : Nat) (xs ys : List FinancialTransactionBase)
    (t : FinancialTransactionBase) (ht : t.fully_invested = false)
    (h : (run_investment_process now t xs).1.fully_invested = true) :
    run_investment_process now t (xs ++ ys) =
      ((run_investment_process now t xs).1,
       (run_investment_process now t xs).2.1 ++ ys,
       (run_investment_process now t xs).2.2) := by
  induction xs generalizing t with
  | nil =>
    simp only [run_investment_process] at h
    rw [h] at ht
    exact absurd ht (by simp)
  | cons x rest ih =>
    simp only [run_investment_process, List.cons_append, List.append_eq] at h ⊢
    by_cases hb : (t.invest_entity_step now (min (t.full_amount - t.invested_amount)
        (x.full_amount - x.invested_amount))).fully_invested = true
    · simp [hb, List.cons_append, List.append_eq]
    · have hb' : (t.invest_entity_step now (min (t.full_amount - t.invested_amount)
          (x.full_amount - x.invested_amount))).fully_invested = false := by
        simpa using hb
      simp only [hb, Bool.false_eq_true, if_false] at h ⊢
      rw [ih _ hb' h]
      simp [List.cons_append]

/-- If the pass on a prefix `xs` leaves the target open, the pass on
`xs ++ ys` processes all of `xs` and continues into `ys` from the state the
prefix pass reached. -/
theorem run_append_not_full (now : Nat) (xs ys : List FinancialTransactionBase)
    (t : FinancialTransactionBase)
    (h : (run_investment_process now t xs).1.fully_invested = false) :
    run_investment_process now t (xs ++ ys) =
      ((run_investment_process now (run_investment_process now t xs).1 ys).1,
       (run_investment_process now t xs).2.1 ++
         (run_investment_process now (run_investment_process now t xs).1 ys).2.1,
       (run_investment_process now t xs).2.2 ++
         (run_investment_process now (run_investment_process now t xs).1 ys).2.2) := by
  induction xs generalizing t with
  | nil =>
    simp only [run_investment_process, List.nil_append]
  | cons x rest ih =>
    simp only [run_investment_process, List.cons_append, List.append_eq] at h ⊢
    by_cases hb : (t.invest_entity_step now (min (t.full_amount - t.invested_amount)
        (x.full_amount - x.invested_amount))).fully_invested = true
    · simp only [hb, if_true] at h
      exact absurd h (by simp)
    · simp only [hb, Bool.false_eq_true, if_false] at h ⊢
      rw [ih _ h]
      simp [List.cons_append]

/-- With an open, unmarked target and open sources, every processed source
receives a strictly positive transfer: its final amount strictly exceeds its
entry amount, position by position along the touched prefix. -/
theorem run_positive (now : Nat) (t : FinancialTransactionBase)
    (ss : List FinancialTransactionBase)
    (ht1 : t.invested_amount < t.full_amount) (ht2 : t.fully_invested = false)
    (hs : ∀ s ∈ ss, s.invested_amount < s.full_amount) :
    ∀ i < (run_investment_process now t ss).2.2.length,
      ∃ a b, ss[i]? = some a ∧
        (run_investment_process now t ss).2.1[i]? = some b ∧
        a.invested_amount < b.invested_amount := by
  induction ss generalizing t with
  | nil =>
    intro i hi
    simp [run_investment_process] at hi
  | cons s rest ih =>
    have hs1 := hs s (List.mem_cons_self s rest)
    have hrest : ∀ e ∈ rest, e.invested_amount < e.full_amount :=
      fun e he => hs e (List.mem_cons_of_mem s he)
    have hv : 0 < min (t.full_amount - t.invested_amount)
        (s.full_amount - s.invested_amount) := lt_min (by omega) (by omega)
    simp only [run_investment_process]
    by_cases hb : (t.invest_entity_step now (min (t.full_amount - t.invested_amount)
        (s.full_amount - s.invested_amount))).fully_invested = true
    · simp only [hb, if_true]
      intro i hi
      simp only [List.length_cons, List.length_nil] at hi
      match i with
      | 0 =>
        refine ⟨s, s.invest_entity_step now (min
          (t.full_amount - t.invested_amount)
          (s.full_amount - s.invested_amount)), by simp, by simp, ?_⟩
        rw [invest_entity_step_invested]
        omega
      | Nat.succ j => omega
    · have hb' : (t.invest_entity_step now (min (t.full_amount - t.invested_amount)
          (s.full_amount - s.invested_amount))).fully_invested = false := by
        simpa using hb
      have ht1' : (t.invest_entity_step now (min (t.full_amount - t.invested_amount)
          (s.full_amount - s.invested_amount))).invested_amount <
          (t.invest_entity_step now (min (t.full_amount - t.invested_amount)
          (s.full_amount - s.invested_amount))).full_amount := by
        have hne := invest_entity_step_not_full now t _ hb'
        have h1 := invest_entity_step_invested now t
          (min (t.full_amount - t.invested_amount)
            (s.full_amount - s.invested_amount))
        have h2 := invest_entity_step_full_amount now t
          (min (t.full_amount - t.invested_amount)
            (s.full_amount - s.invested_amount))
        have hle := min_le_left (t.full_amount - t.invested_amount)
          (s.full_amount - s.invested_amount)
        rw [h1, h2] at hne ⊢
        omega
      simp only [hb, Bool.false_eq_true, if_false]
      intro i hi
      match i with
      | 0 =>
        refine ⟨s, s.invest_entity_step now (min
          (t.full_amount - t.invested_amount)
          (s.full_amount - s.invested_amount)), by simp, by simp, ?_⟩
        rw [invest_entity_step_invested]
        omega
      | Nat.succ j =>
        simp only [List.length_cons, Nat.succ_lt_succ_iff] at hi
        obtain ⟨a, b, ha, hab, hlt⟩ := ih _ ht1' hb' hrest j hi
        exact ⟨a, b, by simpa using ha, by simpa using hab, hlt⟩

/-- C4: for an open target and open sources, if the target's remaining
capacity is fully consumed by the k-th source (the pass over the first k+1
sources fills the target while the pass over the first k does not), then the
full pass touches exactly the first k+1 sources: the returned list has length
k+1, the sources after index k come out unchanged and are excluded, the
returned list is exactly the prefix of the final source states (the touched
sources in processing order — never the target), and each touched source
strictly increased its `invested_amount`. -/
theorem allocation_early_stop (now : Nat) (t : FinancialTransactionBase)
    (ss : List FinancialTransactionBase) (k : Nat)
    (hts : t.invested_amount < t.full_amount ∧ t.fully_invested = false)
    (hss : ∀ s ∈ ss, s.invested_amount < s.full_amount ∧
      s.fully_invested = false)
    (hk : k < ss.length)
    (hconsumed :
      (run_investment_process now t (ss.take (k + 1))).1.fully_invested = true)
    (hnot :
      (run_investment_process now t (ss.take k)).1.fully_invested = false) :
    (run_investment_process now t ss).2.2.length = k + 1 ∧
    (run_investment_process now t ss).2.1.drop (k + 1) = ss.drop (k + 1) ∧
    (run_investment_process now t ss).2.2 =
      (run_investment_process now t ss).2.1.take (k + 1) ∧
    ∀ i < k + 1, ∃ a b, ss[i]? = some a ∧
      (run_investment_process now t ss).2.1[i]? = some b ∧
      a.invested_amount < b.invested_amount := by
  have hsplit : ss.take (k + 1) ++ ss.drop (k + 1) = ss :=
    List.take_append_drop (k + 1) ss
  have hfull := run_append_full now (ss.take (k + 1)) (ss.drop (k + 1)) t
    hts.2 hconsumed
  rw [hsplit] at hfull
  have hlen_take : (ss.take (k + 1)).length = k + 1 := by
    rw [List.length_take]
    omega
  -- length of the touched list over the (k+1)-prefix
  obtain ⟨sk, hsk⟩ : ∃ sk, ss[k]? = some sk :=
    ⟨ss[k], List.getElem?_eq_getElem hk⟩
  have htk : ss.take (k + 1) = ss.take k ++ [sk] := by
    rw [List.take_succ, hsk]
    rfl
  have hsplit2 := run_append_not_full now (ss.take k) [sk] t hnot
  have hmodsk : (run_investment_process now t (ss.take k)).2.2.length = k := by
    rw [run_not_full_all_touched now t (ss.take k) hnot, List.length_take]
    omega
  have hmods1 :
      (run_investment_process now
        (run_investment_process now t (ss.take k)).1 [sk]).2.2.length = 1 := by
    rw [run_singleton]
    rfl
  have hmods_pre :
      (run_investment_process now t (ss.take (k + 1))).2.2.length = k + 1 := by
    rw [htk, hsplit2]
    simp [hmodsk, hmods1]
  have hlen_srcs :
      (run_investment_process now t (ss.take (k + 1))).2.1.length = k + 1 := by
    rw [run_sources_length, hlen_take]
  have hmods : (run_investment_process now t ss).2.2.length = k + 1 := by
    rw [hfull]
    exact hmods_pre
  refine ⟨hmods, ?_, ?_, ?_⟩
  · rw [hfull]
    have := List.drop_left (run_investment_process now t (ss.take (k + 1))).2.1
      (ss.drop (k + 1))
    rw [hlen_srcs] at this
    simpa using this
  · have htake_pre := run_mods_take now t (ss.take (k + 1))
    rw [hmods_pre] at htake_pre
    rw [hfull]
    have hleft := List.take_left (run_investment_process now t
      (ss.take (k + 1))).2.1 (ss.drop (k + 1))
    rw [hlen_srcs] at hleft
    simp only [hleft]
    rw [htake_pre]
    exact List.take_of_length_le (by rw [hlen_srcs])
  · intro i hi
    have := run_positive now t ss hts.1 hts.2 (fun s h => (hss s h).1) i
      (by rw [hmods]; exact hi)
    exact this

/-- Witness for C4: target `full=100`, three open sources of 50, 60, 70; the
second source (index k = 1) fills the target, the third is untouched and
excluded. -/
theorem allocation_early_stop_witness :
    (run_investment_process 0 ⟨100, 0, false, 0, none⟩
      [⟨50, 0, false, 1, none⟩, ⟨60, 0, false, 2, none⟩,
        ⟨70, 0, false, 3, none⟩]).2.2.length = 1 + 1 :=
  (allocation_early_stop 0 ⟨100, 0, false, 0, none⟩
    [⟨50, 0, false, 1, none⟩, ⟨60, 0, false, 2, none⟩, ⟨70, 0, false, 3, none⟩]
    1 (by decide) (by decide) (by decide) (by decide) (by decide)).1

/-- Scenario A of the spec: target `{full=100, invested=0}`, sources
`[{full=50, invested=0}, {full=80, invested=0}]`. -/
theorem scenario_A (now : Nat) :
    run_investment_process now
        ⟨100, 0, false, 0, none⟩
        [⟨50, 0, false, 1, none⟩, ⟨80, 0, false, 2, none⟩] =
      (⟨100, 100, true, 0, some now⟩,
       [⟨50, 50, true, 1, some now⟩, ⟨80, 50, false, 2, none⟩],
       [⟨50, 50, true, 1, some now⟩, ⟨80, 50, false, 2, none⟩]) := by
  simp [run_investment_process, invest_entity_step_eq]
